import Mathlib

/-
  Verification development for the nri-jmx legacy-configuration migration
  engine (Go source: jmxparser, functions parseJavaAgentJmxDefinition,
  reduceJavaAgentYaml, buildCollectionDefinition, convertMetricType,
  getEventName, makeInsightsCompliantEventType).

  Strings are modelled as `List Char`.  Go's `strings.Split` with a one-byte
  separator is modelled by `splitOnChar`, `strings.TrimSpace` by `trimSpace`,
  `strings.Replace(s, old, new, -1)` by `replaceAll`, and the regular
  expression "{\w+}" (FindAllString / MatchString) by `findPlaceholders`.

  Go maps are modelled as association lists (`lookupA` / `updateA` /
  insertion by appending); all map reads in the source are first-match
  lookups and all map writes happen under a prior absence check, so the
  association-list view is a faithful linearisation of the unordered map.
  A Go runtime panic (index out of range) is modelled by `Option`: `none`
  means the run dies; the Go functions' `error` results are always `nil`
  in the source, so `none` never stands for a returned error.
-/

/-- Character class of Go's `unicode.IsSpace` restricted to the Latin-1
range (`strings.TrimSpace`): space, tab, newline, vertical tab, form feed,
carriage return, NEL and NBSP. -/
def isGoSpace (c : Char) : Bool :=
  c = ' ' || c = '\t' || c = '\n' || c = (Char.ofNat 11) || c = (Char.ofNat 12) ||
  c = '\r' || c = (Char.ofNat 133) || c = (Char.ofNat 160)

/-- Model of Go `strings.TrimSpace`: drop leading and trailing whitespace. -/
def trimSpace (cs : List Char) : List Char :=
  ((cs.dropWhile isGoSpace).reverse.dropWhile isGoSpace).reverse

/-- Model of Go `strings.Split` with a single-character separator: split on
every occurrence of `sep`; the result is always non-empty, and splitting the
empty string yields `[[]]`. -/
def splitOnChar (sep : Char) : List Char → List (List Char)
  | [] => [[]]
  | c :: rest =>
    if c = sep then [] :: splitOnChar sep rest
    else
      match splitOnChar sep rest with
      | [] => [[c]]
      | x :: xs => (c :: x) :: xs

/-- First-match lookup in an association list (the read `m[k]` of a Go map,
comma-ok form). -/
def lookupA {α : Type} (k : List Char) : List (List Char × α) → Option α
  | [] => none
  | (k', v) :: rest => if k' = k then some v else lookupA k rest

/-- Update the first entry with key `k` by `f`, leaving the list unchanged
when the key is absent. -/
def updateA {α : Type} (k : List Char) (f : α → α) :
    List (List Char × α) → List (List Char × α)
  | [] => []
  | (k', v) :: rest => if k' = k then (k', f v) :: rest else (k', v) :: updateA k f rest

/-- The write `m[k] = v` of a Go map: overwrite the entry when present,
append it otherwise. -/
def updateOrInsertA {α : Type} (k : List Char) (v : α)
    (l : List (List Char × α)) : List (List Char × α) :=
  match lookupA k l with
  | some _ => updateA k (fun _ => v) l
  | none => l ++ [(k, v)]

/-- Sequential fold that dies (`none`) as soon as one step dies; models a Go
loop whose body may panic. -/
def foldOpt {α β : Type} (f : β → α → Option β) : β → List α → Option β
  | b, [] => some b
  | b, a :: l =>
    match f b a with
    | none => none
    | some b' => foldOpt f b' l

/-- Character class of the regular-expression atom `\w` (RE2, ASCII):
letters, digits and underscore. -/
def isWordChar (c : Char) : Bool :=
  c.isAlpha || c.isDigit || c = '_'

/-- Fuel-indexed scanner for all matches of the pattern "{\w+}". At an
opening brace it takes the maximal run of word characters; the match
succeeds when that run is non-empty and immediately followed by a closing
brace, and scanning resumes after the closing brace; otherwise scanning
resumes at the next character.  Each recursive call consumes at least one
character and one unit of fuel, so fuel equal to the length is enough. -/
def findPlaceholdersAux : Nat → List Char → List (List Char)
  | 0, _ => []
  | _ + 1, [] => []
  | n + 1, c :: rest =>
    if c = '{' then
      let w := rest.takeWhile isWordChar
      match rest.dropWhile isWordChar with
      | '}' :: rest3 =>
        if w = [] then findPlaceholdersAux n rest
        else ('{' :: (w ++ ['}'])) :: findPlaceholdersAux n rest3
      | _ => findPlaceholdersAux n rest
    else findPlaceholdersAux n rest

/-- Model of Go `regexp.FindAllString` for the pattern "{\w+}" (and of
`MatchString`, via emptiness of the result). -/
def findPlaceholders (cs : List Char) : List (List Char) :=
  findPlaceholdersAux cs.length cs

/-- Fuel-indexed replacement of every non-overlapping occurrence of `old`
(non-empty in every use below) by `new`, scanning left to right. -/
def replaceAllAux (old new : List Char) : Nat → List Char → List Char
  | _, [] => []
  | 0, cs => cs
  | n + 1, c :: rest =>
    if old ≠ [] ∧ old.isPrefixOf (c :: rest) then
      new ++ replaceAllAux old new n ((c :: rest).drop old.length)
    else c :: replaceAllAux old new n rest

/-- Model of Go `strings.Replace(s, old, new, -1)` for non-empty `old`. -/
def replaceAll (old new cs : List Char) : List Char :=
  replaceAllAux old new cs.length cs

/- ---------------------------------------------------------------------
   Data model: the 'Parser', 'Reducer' and 'Output' structs of the source.
   The fields `Version` and `Enabled` of the main definition are never read
   by the functions modelled here and are omitted.
   --------------------------------------------------------------------- -/

/-- Source struct `metricsDefinitionParser` (fields `Attributes`, `Type`;
the latter is renamed `Type'` because `Type` is reserved in Lean). -/
structure metricsDefinitionParser where
  Attributes : List Char
  Type' : List Char
deriving DecidableEq

/-- Source struct `jmxDefinitionParser`. -/
structure jmxDefinitionParser where
  ObjectName : List Char
  RootMetricName : List Char
  Metrics : List metricsDefinitionParser
deriving DecidableEq

/-- Source struct `mainDefinitionParser` (consumed fields only). -/
structure mainDefinitionParser where
  Name : List Char
  JMX : List jmxDefinitionParser
deriving DecidableEq

/-- Source struct `attributeReducer`. -/
structure attributeReducer where
  MetricType : List Char
  MetricName : List Char
deriving DecidableEq

/-- Source struct `beanReducer`; the map key is the attribute name. -/
structure beanReducer where
  AttributesMap : List (List Char × attributeReducer)
deriving DecidableEq

/-- Source struct `domainReducer`; the map key is the query string. -/
structure domainReducer where
  EventType : List Char
  BeansMap : List (List Char × beanReducer)
deriving DecidableEq

/-- The intermediate model: the map from domain to `domainReducer` built by
`reduceJavaAgentYaml`. -/
abbrev DomainMap := List (List Char × domainReducer)

/-- Source struct `attributeOutput`. -/
structure attributeOutput where
  Attr : List Char
  MetricType : List Char
  MetricName : List Char
deriving DecidableEq

/-- Source struct `beanOutput`. -/
structure beanOutput where
  Query : List Char
  Attributes : List attributeOutput
deriving DecidableEq

/-- Source struct `domainOutput`. -/
structure domainOutput where
  Domain : List Char
  EventType : List Char
  Beans : List beanOutput
deriving DecidableEq

/-- Source: `var defaultEventType = "JMXSample"`. -/
def defaultEventType : List Char := "JMXSample".toList

/- ---------------------------------------------------------------------
   The functions of the source.
   --------------------------------------------------------------------- -/

/-- Source `makeInsightsCompliantEventType`: replace every space by an
underscore, then every slash by a colon (two independent passes over the
string; both are one-character replacements). -/
def makeInsightsCompliantEventType (inString : List Char) : List Char :=
  (inString.map (fun c => if c = ' ' then '_' else c)).map
    (fun c => if c = '/' then ':' else c)

/-- Source `convertMetricType`: trim the incoming kind string, then map
"simple" to "gauge", "monotonically_increasing" to "delta", and anything
else to "gauge". -/
def convertMetricType (metrictype : List Char) : List Char :=
  if trimSpace metrictype = "simple".toList then "gauge".toList
  else if trimSpace metrictype = "monotonically_increasing".toList then "delta".toList
  else "gauge".toList

/-- The query-parsing loop of `getEventName` (source lines 200-205): split
the query on commas; for each piece, split on every '=' and store
`querySplit[0] ↦ querySplit[1]` in the map (a Go map write, so a later
duplicate key overwrites).  A piece with no '=' makes `querySplit[1]` an
out-of-range access: the run dies (`none`). -/
def buildQueryMap (qs : List (List Char)) : Option (List (List Char × List Char)) :=
  foldOpt (fun m p =>
    match splitOnChar '=' p with
    | k :: v :: _ => some (updateOrInsertA k v m)
    | _ => none) [] qs

/-- The replacement loop of `getEventName` (source lines 206-212): for each
matched placeholder "{id}" (in match order, duplicates included), when `id`
is a key of the query map, replace every occurrence of the braced literal
in the current template by the mapped value. -/
def substituteAll (matched : List (List Char)) (qmap : List (List Char × List Char))
    (root : List Char) : List Char :=
  matched.foldl (fun cur obj =>
    match lookupA (obj.drop 1 |>.dropLast) qmap with
    | some v => replaceAll obj v cur
    | none => cur) root

/-- Source `getEventName`: default the application name when empty; with an
empty template return the sanitised name; otherwise, when the template
contains a "{\w+}" placeholder, parse the query and substitute, and return
the sanitised `name ++ "_" ++ template`. `none` models the panic inside the
query parse. -/
def getEventName (oldName rootMetricName query : List Char) : Option (List Char) :=
  let oldName' := if oldName = [] then defaultEventType else oldName
  if rootMetricName = [] then some (makeInsightsCompliantEventType oldName')
  else
    let matched := findPlaceholders rootMetricName
    if matched = [] then
      some (makeInsightsCompliantEventType (oldName' ++ '_' :: rootMetricName))
    else
      match buildQueryMap (splitOnChar ',' query) with
      | none => none
      | some qmap =>
        some (makeInsightsCompliantEventType
          (oldName' ++ '_' :: substituteAll matched qmap rootMetricName))

/-- One attribute event of the reduction: a declaration's split object name
(`dq0`, `dq1`), its root template, and one raw comma-segment of one metric
group together with that group's kind string. -/
structure AttrEvent where
  root : List Char
  dq0 : List Char
  dq1 : List Char
  mtype : List Char
  rawAttr : List Char
deriving DecidableEq

/-- Body of the innermost loop of `reduceJavaAgentYaml` (source lines
126-145), written against the current domain map.  The Go code keeps the
local pointers `thisDomain` (domain present when the declaration started)
and `thisBean` (bean present, or created earlier in this declaration); a
bean pointer is non-nil exactly when the map currently has an entry at
`(dq0, dq1)`, and the creating branch runs at most once per declaration,
so the pointer-free reading below is equivalent: look the path up in the
current map and insert the attribute entry only where something is absent.
Creating the domain computes its event type (source line 137); `none`
models the panic that `getEventName` can raise there. -/
def reduceOneAttr (name : List Char) (dm : DomainMap) (e : AttrEvent) :
    Option DomainMap :=
  let attr := trimSpace e.rawAttr
  let entry : attributeReducer := attributeReducer.mk (convertMetricType e.mtype) attr
  match lookupA e.dq0 dm with
  | some dom =>
    match lookupA e.dq1 dom.BeansMap with
    | some bean =>
      match lookupA attr bean.AttributesMap with
      | some _ => some dm
      | none =>
        some (updateA e.dq0 (fun d =>
          domainReducer.mk d.EventType (updateA e.dq1 (fun b =>
            beanReducer.mk (b.AttributesMap ++ [(attr, entry)])) d.BeansMap)) dm)
    | none =>
      some (updateA e.dq0 (fun d =>
        domainReducer.mk d.EventType
          (d.BeansMap ++ [(e.dq1, beanReducer.mk [(attr, entry)])])) dm)
  | none =>
    match getEventName name e.root e.dq1 with
    | none => none
    | some et =>
      some (dm ++ [(e.dq0,
        domainReducer.mk et [(e.dq1, beanReducer.mk [(attr, entry)])])])

/-- The attribute events contributed by one declaration, in source order:
nothing when the object name has no colon (such a declaration never reaches
the inner loops without dying first), else one event per comma-segment of
each metric group. -/
def declEvents (obj : jmxDefinitionParser) : List AttrEvent :=
  match splitOnChar ':' obj.ObjectName with
  | dq0 :: dq1 :: _ =>
    (obj.Metrics.map (fun met =>
      (splitOnChar ',' met.Attributes).map (fun a =>
        AttrEvent.mk obj.RootMetricName dq0 dq1 met.Type' a))).flatten
  | _ => []

/-- One iteration of the outer loop of `reduceJavaAgentYaml` (source lines
114-147).  When the object name splits into at least two pieces the inner
loops run over the declaration's attribute events.  When it has no colon,
`domainAndQuery[1]` is read out of range — and the run dies — as soon as the
domain is already present (source line 120) or any attribute is processed
(source line 137; every metric group yields at least one comma-segment);
only a colon-free declaration with no metric groups and an unknown domain
falls through as a no-op. -/
def reduceDecl (name : List Char) (dm : DomainMap) (obj : jmxDefinitionParser) :
    Option DomainMap :=
  match splitOnChar ':' obj.ObjectName with
  | _ :: _ :: _ => foldOpt (reduceOneAttr name) dm (declEvents obj)
  | [dq0] =>
    if (lookupA dq0 dm).isSome then none
    else if obj.Metrics = [] then some dm
    else none
  | [] => none

/-- Source `reduceJavaAgentYaml`: fold the declarations, in input order,
into the intermediate model, starting from the empty map. -/
def reduceJavaAgentYaml (m : mainDefinitionParser) : Option DomainMap :=
  foldOpt (reduceDecl m.Name) [] m.JMX

/-- All attribute events of a document, in processing order. -/
def allEvents (m : mainDefinitionParser) : List AttrEvent :=
  (m.JMX.map declEvents).flatten

/-- Source `parseJavaAgentJmxDefinition` (the non-reducing path): one output
domain record per declaration, in order; `domainAndQuery[1]` is read
unconditionally (source line 105), so any declaration without a colon dies. -/
def parseJavaAgentJmxDefinition (m : mainDefinitionParser) :
    Option (List domainOutput) :=
  foldOpt (fun acc obj =>
    match splitOnChar ':' obj.ObjectName with
    | dq0 :: dq1 :: _ =>
      let outbeans := obj.Metrics.map (fun met =>
        beanOutput.mk dq1 ((splitOnChar ',' met.Attributes).map (fun a =>
          attributeOutput.mk (trimSpace a) (convertMetricType met.Type') (trimSpace a))))
      match getEventName m.Name obj.RootMetricName dq1 with
      | none => none
      | some et => some (acc ++ [domainOutput.mk dq0 et outbeans])
    | _ => none) [] m.JMX

/-- Source `buildCollectionDefinition`: flatten the nested maps into the
output records, in the order the entries are enumerated.  The association
list stands for one linearisation of the unordered Go map; a run of the Go
function enumerates each map in an unspecified order, so distinct
linearisations of equal maps are both possible runs. -/
def buildCollectionDefinition (dr : DomainMap) : List domainOutput :=
  dr.map (fun p =>
    domainOutput.mk p.1 p.2.EventType (p.2.BeansMap.map (fun bp =>
      beanOutput.mk bp.1 (bp.2.AttributesMap.map (fun ap =>
        attributeOutput.mk ap.1 ap.2.MetricType ap.2.MetricName)))))

/-- Lookup of the attribute entry stored at domain `d`, query `q`,
attribute `a` of the intermediate model. -/
def lookupAttr (dm : DomainMap) (d q a : List Char) : Option attributeReducer :=
  (lookupA d dm).bind (fun dom =>
    (lookupA q dom.BeansMap).bind (fun b => lookupA a b.AttributesMap))


/- ---------------------------------------------------------------------
   Basic lemmas about the string and map primitives.
   --------------------------------------------------------------------- -/

theorem splitOnChar_ne_nil (sep : Char) (cs : List Char) : splitOnChar sep cs ≠ [] := by
  induction cs with
  | nil => simp [splitOnChar]
  | cons c rest ih =>
    simp only [splitOnChar]
    split
    · simp
    · cases h : splitOnChar sep rest with
      | nil => simp
      | cons x xs => simp

theorem splitOnChar_of_not_mem (sep : Char) (cs : List Char) (h : sep ∉ cs) :
    splitOnChar sep cs = [cs] := by
  induction cs with
  | nil => rfl
  | cons c rest ih =>
    have hc : ¬ c = sep := fun hh => h (hh ▸ List.mem_cons_self c rest)
    have hr : sep ∉ rest := fun hh => h (List.mem_cons_of_mem c hh)
    simp only [splitOnChar, if_neg hc, ih hr]

theorem splitOnChar_cons_of_ne_nil (sep : Char) (xs : List Char) :
    ∃ x t, splitOnChar sep xs = x :: t := by
  cases h : splitOnChar sep xs with
  | nil => exact absurd h (splitOnChar_ne_nil sep xs)
  | cons x t => exact ⟨x, t, rfl⟩

theorem splitOnChar_append_sep (sep : Char) (xs ys : List Char) :
    splitOnChar sep (xs ++ sep :: ys) = splitOnChar sep xs ++ splitOnChar sep ys := by
  induction xs with
  | nil => simp [splitOnChar]
  | cons a xs' ih =>
    show splitOnChar sep (a :: (xs' ++ sep :: ys)) = _
    by_cases ha : a = sep
    · simp [splitOnChar, ha, ih]
    · obtain ⟨x, t, hxt⟩ := splitOnChar_cons_of_ne_nil sep xs'
      rw [hxt] at ih
      simp [splitOnChar, ha, ih, hxt]

theorem splitOnChar_head (sep : Char) (cs : List Char) :
    ∃ t, splitOnChar sep cs = cs.takeWhile (fun c => c != sep) :: t := by
  induction cs with
  | nil => exact ⟨[], rfl⟩
  | cons c rest ih =>
    by_cases hc : c = sep
    · refine ⟨splitOnChar sep rest, ?_⟩
      simp [splitOnChar, hc]
    · obtain ⟨t, ht⟩ := ih
      refine ⟨t, ?_⟩
      simp [splitOnChar, hc, ht]

theorem lookupA_append {α : Type} (k : List Char) (l1 l2 : List (List Char × α)) :
    lookupA k (l1 ++ l2) =
      match lookupA k l1 with
      | some v => some v
      | none => lookupA k l2 := by
  induction l1 with
  | nil => simp [lookupA]
  | cons p rest ih =>
    obtain ⟨a, v⟩ := p
    by_cases h : a = k <;> simp [lookupA, h, ih]

theorem lookupA_updateA {α : Type} (k u : List Char) (f : α → α)
    (l : List (List Char × α)) :
    lookupA k (updateA u f l) = if u = k then (lookupA k l).map f else lookupA k l := by
  induction l with
  | nil => simp [updateA, lookupA]
  | cons p rest ih =>
    obtain ⟨a, v⟩ := p
    simp only [updateA]
    by_cases h1 : a = u
    · subst h1
      by_cases h2 : a = k
      · subst h2
        simp [lookupA]
      · simp [lookupA, h2]
    · by_cases h2 : a = k
      · subst h2
        have h1' : ¬ u = a := fun hh => h1 hh.symm
        simp [lookupA, h1, h1']
      · simp [lookupA, h1, h2, ih]

theorem lookupA_eq_none_iff {α : Type} (k : List Char) (l : List (List Char × α)) :
    lookupA k l = none ↔ k ∉ l.map Prod.fst := by
  induction l with
  | nil => simp [lookupA]
  | cons p rest ih =>
    obtain ⟨a, v⟩ := p
    simp only [List.map_cons, List.mem_cons]
    by_cases h : a = k
    · subst h
      simp only [lookupA, if_pos rfl]
      constructor
      · intro hh
        cases hh
      · intro hh
        exact absurd (Or.inl trivial) hh
    · simp only [lookupA, if_neg h, ih]
      constructor
      · intro hh h2
        rcases h2 with h2 | h2
        · exact h h2.symm
        · exact hh h2
      · intro hh h2
        exact hh (Or.inr h2)

theorem lookupA_mem {α : Type} (k : List Char) (l : List (List Char × α)) (v : α)
    (h : lookupA k l = some v) : (k, v) ∈ l := by
  induction l with
  | nil => simp [lookupA] at h
  | cons p rest ih =>
    obtain ⟨a, w⟩ := p
    by_cases ha : a = k
    · subst ha
      simp [lookupA] at h
      simp [h]
    · simp only [lookupA, if_neg ha] at h
      exact List.mem_cons_of_mem _ (ih h)

theorem mem_updateA {α : Type} (u : List Char) (f : α → α)
    (l : List (List Char × α)) (p : List Char × α) (h : p ∈ updateA u f l) :
    p ∈ l ∨ ∃ v, lookupA u l = some v ∧ p = (u, f v) := by
  induction l with
  | nil => simp [updateA] at h
  | cons q rest ih =>
    obtain ⟨a, w⟩ := q
    by_cases ha : a = u
    · subst ha
      simp only [updateA, if_pos rfl] at h
      rcases List.mem_cons.mp h with h1 | h1
      · exact Or.inr ⟨w, by simp [lookupA, h1]⟩
      · exact Or.inl (List.mem_cons_of_mem _ h1)
    · simp only [updateA, if_neg ha] at h
      rcases List.mem_cons.mp h with h1 | h1
      · exact Or.inl (by simp [h1])
      · rcases ih h1 with h2 | ⟨v, hv, hp⟩
        · exact Or.inl (List.mem_cons_of_mem _ h2)
        · exact Or.inr ⟨v, by simp [lookupA, ha, hv], hp⟩

theorem keys_updateA {α : Type} (u : List Char) (f : α → α)
    (l : List (List Char × α)) :
    (updateA u f l).map Prod.fst = l.map Prod.fst := by
  induction l with
  | nil => rfl
  | cons q rest ih =>
    obtain ⟨a, w⟩ := q
    by_cases ha : a = u <;> simp [updateA, ha, ih]

theorem foldOpt_append {α β : Type} (f : β → α → Option β) (l1 l2 : List α) (b : β) :
    foldOpt f b (l1 ++ l2) =
      match foldOpt f b l1 with
      | none => none
      | some b' => foldOpt f b' l2 := by
  induction l1 generalizing b with
  | nil => simp [foldOpt]
  | cons a l1' ih =>
    simp only [List.cons_append, foldOpt]
    cases f b a with
    | none => rfl
    | some b' => exact ih b'

theorem foldOpt_none_of_mem {α β : Type} (f : β → α → Option β) (l : List α) (b : β)
    (x : α) (hx : x ∈ l) (h : ∀ b', f b' x = none) : foldOpt f b l = none := by
  induction l generalizing b with
  | nil => simp at hx
  | cons a l' ih =>
    rcases List.mem_cons.mp hx with h1 | h1
    · subst h1
      simp [foldOpt, h b]
    · simp only [foldOpt]
      cases f b a with
      | none => rfl
      | some b' => exact ih b' h1

/- ---------------------------------------------------------------------
   Effect of one attribute step on the intermediate model.
   --------------------------------------------------------------------- -/

theorem lookupAttr_append_dom {dm : DomainMap} {k0 : List Char}
    (hdom : lookupA k0 dm = none) (et k1 ka : List Char) (en : attributeReducer)
    (d q a : List Char) :
    lookupAttr (dm ++ [(k0, domainReducer.mk et [(k1, beanReducer.mk [(ka, en)])])]) d q a =
      if k0 = d ∧ k1 = q ∧ ka = a then some en else lookupAttr dm d q a := by
  simp only [lookupAttr]
  rw [lookupA_append]
  by_cases hd : k0 = d
  · subst hd
    rw [hdom]
    by_cases hq : k1 = q
    · subst hq
      by_cases ha : ka = a
      · subst ha
        simp [lookupA]
      · simp [lookupA, ha]
    · simp [lookupA, hq]
  · cases hld : lookupA d dm with
    | some dom => simp [hd]
    | none => simp [lookupA, hd]

theorem lookupAttr_update_newbean {dm : DomainMap} {k0 : List Char} {dom : domainReducer}
    (hdom : lookupA k0 dm = some dom) {k1 : List Char}
    (hbean : lookupA k1 dom.BeansMap = none) (ka : List Char) (en : attributeReducer)
    (d q a : List Char) :
    lookupAttr (updateA k0 (fun dd => domainReducer.mk dd.EventType
        (dd.BeansMap ++ [(k1, beanReducer.mk [(ka, en)])])) dm) d q a =
      if k0 = d ∧ k1 = q ∧ ka = a then some en else lookupAttr dm d q a := by
  simp only [lookupAttr]
  rw [lookupA_updateA]
  by_cases hd : k0 = d
  · subst hd
    rw [if_pos rfl, hdom]
    simp only [Option.map_some', Option.some_bind]
    rw [lookupA_append]
    cases hbq : lookupA q dom.BeansMap with
    | some bean =>
      have hne : ¬ k1 = q := by
        intro hh
        rw [hh, hbq] at hbean
        cases hbean
      simp [hbq, hne]
    | none =>
      by_cases hq : k1 = q
      · subst hq
        by_cases ha : ka = a
        · subst ha
          simp [lookupA, hbq]
        · simp [lookupA, hbq, ha]
      · simp [lookupA, hbq, hq]
  · simp [hd, hdom]

theorem lookupAttr_update_newattr {dm : DomainMap} {k0 : List Char} {dom : domainReducer}
    (hdom : lookupA k0 dm = some dom) {k1 : List Char} {bean : beanReducer}
    (hbean : lookupA k1 dom.BeansMap = some bean) {ka : List Char}
    (hattr : lookupA ka bean.AttributesMap = none) (en : attributeReducer)
    (d q a : List Char) :
    lookupAttr (updateA k0 (fun dd => domainReducer.mk dd.EventType
        (updateA k1 (fun b => beanReducer.mk (b.AttributesMap ++ [(ka, en)]))
          dd.BeansMap)) dm) d q a =
      if k0 = d ∧ k1 = q ∧ ka = a then some en else lookupAttr dm d q a := by
  simp only [lookupAttr]
  rw [lookupA_updateA]
  by_cases hd : k0 = d
  · subst hd
    rw [if_pos rfl, hdom]
    simp only [Option.map_some', Option.some_bind]
    rw [lookupA_updateA]
    by_cases hq : k1 = q
    · subst hq
      rw [if_pos rfl, hbean]
      simp only [Option.map_some', Option.some_bind]
      rw [lookupA_append]
      by_cases ha : ka = a
      · subst ha
        rw [hattr]
        simp [lookupA, hdom, hbean, hattr]
      · cases hla : lookupA a bean.AttributesMap with
        | some x => simp [hla, ha, hdom, hbean]
        | none => simp [lookupA, hla, ha, hdom, hbean]
    · simp [hq, hdom, hbean]
  · simp [hd, hdom]

theorem lookupAttr_reduceOneAttr (name : List Char) (dm dm' : DomainMap) (e : AttrEvent)
    (h : reduceOneAttr name dm e = some dm') (d q a : List Char) :
    lookupAttr dm' d q a =
      if e.dq0 = d ∧ e.dq1 = q ∧ trimSpace e.rawAttr = a ∧ lookupAttr dm d q a = none
      then some (attributeReducer.mk (convertMetricType e.mtype) a)
      else lookupAttr dm d q a := by
  simp only [reduceOneAttr] at h
  cases hdom : lookupA e.dq0 dm with
  | none =>
    rw [hdom] at h
    cases hev : getEventName name e.root e.dq1 with
    | none =>
      rw [hev] at h
      exact Option.noConfusion h
    | some et =>
      rw [hev] at h
      have hdm' := (Option.some.inj h).symm
      subst hdm'
      rw [lookupAttr_append_dom hdom]
      by_cases hc : e.dq0 = d ∧ e.dq1 = q ∧ trimSpace e.rawAttr = a
      · obtain ⟨h1, h2, h3⟩ := hc
        have hnone : lookupAttr dm d q a = none := by
          simp only [lookupAttr, ← h1, hdom, Option.none_bind]
        rw [if_pos ⟨h1, h2, h3⟩, if_pos ⟨h1, h2, h3, hnone⟩, h3]
      · rw [if_neg hc, if_neg (fun hh => hc ⟨hh.1, hh.2.1, hh.2.2.1⟩)]
  | some dom =>
    simp only [hdom] at h
    cases hbean : lookupA e.dq1 dom.BeansMap with
    | none =>
      simp only [hbean] at h
      have hdm' := (Option.some.inj h).symm
      subst hdm'
      rw [lookupAttr_update_newbean hdom hbean]
      by_cases hc : e.dq0 = d ∧ e.dq1 = q ∧ trimSpace e.rawAttr = a
      · obtain ⟨h1, h2, h3⟩ := hc
        have hnone : lookupAttr dm d q a = none := by
          simp only [lookupAttr, ← h1, hdom, Option.some_bind, ← h2, hbean,
            Option.none_bind]
        rw [if_pos ⟨h1, h2, h3⟩, if_pos ⟨h1, h2, h3, hnone⟩, h3]
      · rw [if_neg hc, if_neg (fun hh => hc ⟨hh.1, hh.2.1, hh.2.2.1⟩)]
    | some bean =>
      simp only [hbean] at h
      cases hattr : lookupA (trimSpace e.rawAttr) bean.AttributesMap with
      | none =>
        simp only [hattr] at h
        have hdm' := (Option.some.inj h).symm
        subst hdm'
        rw [lookupAttr_update_newattr hdom hbean hattr]
        by_cases hc : e.dq0 = d ∧ e.dq1 = q ∧ trimSpace e.rawAttr = a
        · obtain ⟨h1, h2, h3⟩ := hc
          have hnone : lookupAttr dm d q a = none := by
            simp only [lookupAttr, ← h1, hdom, Option.some_bind, ← h2, hbean, ← h3,
              hattr]
          rw [if_pos ⟨h1, h2, h3⟩, if_pos ⟨h1, h2, h3, hnone⟩, h3]
        · rw [if_neg hc, if_neg (fun hh => hc ⟨hh.1, hh.2.1, hh.2.2.1⟩)]
      | some x =>
        simp only [hattr] at h
        have hdm' : dm = dm' := Option.some.inj h
        subst hdm'
        by_cases hc : e.dq0 = d ∧ e.dq1 = q ∧ trimSpace e.rawAttr = a ∧
            lookupAttr dm d q a = none
        · obtain ⟨h1, h2, h3, h4⟩ := hc
          simp only [lookupAttr, ← h1, hdom, Option.some_bind, ← h2, hbean, ← h3,
            hattr] at h4
          exact Option.noConfusion h4
        · rw [if_neg hc]

theorem lookupDom_reduceOneAttr (name : List Char) (dm dm' : DomainMap) (e : AttrEvent)
    (h : reduceOneAttr name dm e = some dm') (d : List Char) :
    (lookupA d dm').map domainReducer.EventType =
      match lookupA d dm with
      | some g => some g.EventType
      | none => if e.dq0 = d then getEventName name e.root e.dq1 else none := by
  simp only [reduceOneAttr] at h
  cases hdom : lookupA e.dq0 dm with
  | none =>
    simp only [hdom] at h
    cases hev : getEventName name e.root e.dq1 with
    | none =>
      rw [hev] at h
      exact Option.noConfusion h
    | some et =>
      rw [hev] at h
      have hdm' := (Option.some.inj h).symm
      subst hdm'
      rw [lookupA_append]
      cases hld : lookupA d dm with
      | some g => simp
      | none =>
        by_cases hd : e.dq0 = d
        · simp [lookupA, hd, hev]
        · simp [lookupA, hd, hev]
  | some dom =>
    simp only [hdom] at h
    have hpres : ∀ dm₁, (∀ k, (lookupA k dm₁).map domainReducer.EventType =
        (lookupA k dm).map domainReducer.EventType) →
        (lookupA d dm₁).map domainReducer.EventType =
          match lookupA d dm with
          | some g => some g.EventType
          | none => if e.dq0 = d then getEventName name e.root e.dq1 else none := by
      intro dm₁ hk
      rw [hk d]
      cases hld : lookupA d dm with
      | some g => simp
      | none =>
        by_cases hd : e.dq0 = d
        · rw [← hd] at hld
          rw [hld] at hdom
          exact Option.noConfusion hdom
        · simp [hd]
    cases hbean : lookupA e.dq1 dom.BeansMap with
    | none =>
      simp only [hbean] at h
      have hdm' := (Option.some.inj h).symm
      subst hdm'
      refine hpres _ (fun k => ?_)
      rw [lookupA_updateA]
      by_cases hk0 : e.dq0 = k
      · rw [if_pos hk0, ← hk0, hdom]
        simp
      · rw [if_neg hk0]
    | some bean =>
      simp only [hbean] at h
      cases hattr : lookupA (trimSpace e.rawAttr) bean.AttributesMap with
      | some x =>
        simp only [hattr] at h
        have hdm' : dm = dm' := Option.some.inj h
        subst hdm'
        exact hpres _ (fun k => rfl)
      | none =>
        simp only [hattr] at h
        have hdm' := (Option.some.inj h).symm
        subst hdm'
        refine hpres _ (fun k => ?_)
        rw [lookupA_updateA]
        by_cases hk0 : e.dq0 = k
        · rw [if_pos hk0, ← hk0, hdom]
          simp
        · rw [if_neg hk0]

theorem lookupAttr_foldEvents (name : List Char) (evs : List AttrEvent)
    (dm dm' : DomainMap) (h : foldOpt (reduceOneAttr name) dm evs = some dm')
    (d q a : List Char) :
    lookupAttr dm' d q a =
      match lookupAttr dm d q a with
      | some x => some x
      | none =>
        (evs.find? (fun e => e.dq0 == d && e.dq1 == q && trimSpace e.rawAttr == a)).map
          (fun e => attributeReducer.mk (convertMetricType e.mtype) a) := by
  induction evs generalizing dm with
  | nil =>
    simp only [foldOpt] at h
    have hdm' : dm = dm' := Option.some.inj h
    subst hdm'
    cases hla : lookupAttr dm d q a <;> simp
  | cons e evs ih =>
    simp only [foldOpt] at h
    cases hstep : reduceOneAttr name dm e with
    | none =>
      rw [hstep] at h
      exact Option.noConfusion h
    | some dm₁ =>
      rw [hstep] at h
      have hstep' := lookupAttr_reduceOneAttr name dm dm₁ e hstep d q a
      rw [ih dm₁ h]
      by_cases hc : e.dq0 = d ∧ e.dq1 = q ∧ trimSpace e.rawAttr = a ∧
          lookupAttr dm d q a = none
      · obtain ⟨h1, h2, h3, h4⟩ := hc
        rw [if_pos ⟨h1, h2, h3, h4⟩] at hstep'
        rw [hstep', h4]
        have hpred : (e.dq0 == d && e.dq1 == q && trimSpace e.rawAttr == a) = true := by
          simp [h1, h2, h3]
        simp [List.find?, hpred]
      · rw [if_neg hc] at hstep'
        rw [hstep']
        cases hla : lookupAttr dm d q a with
        | some x => simp
        | none =>
          have hpred : (e.dq0 == d && e.dq1 == q && trimSpace e.rawAttr == a) = false := by
            rw [Bool.eq_false_iff]
            intro hb
            simp only [Bool.and_eq_true, beq_iff_eq] at hb
            exact hc ⟨hb.1.1, hb.1.2, hb.2, hla⟩
          simp [List.find?, hpred]

theorem lookupDom_foldEvents (name : List Char) (evs : List AttrEvent)
    (dm dm' : DomainMap) (h : foldOpt (reduceOneAttr name) dm evs = some dm')
    (d : List Char) :
    (lookupA d dm').map domainReducer.EventType =
      match (lookupA d dm).map domainReducer.EventType with
      | some et => some et
      | none =>
        (evs.find? (fun e => e.dq0 == d)).bind
          (fun e => getEventName name e.root e.dq1) := by
  induction evs generalizing dm with
  | nil =>
    simp only [foldOpt] at h
    have hdm' : dm = dm' := Option.some.inj h
    subst hdm'
    cases hla : (lookupA d dm).map domainReducer.EventType <;> simp
  | cons e evs ih =>
    simp only [foldOpt] at h
    cases hstep : reduceOneAttr name dm e with
    | none =>
      rw [hstep] at h
      exact Option.noConfusion h
    | some dm₁ =>
      rw [hstep] at h
      have hstep' := lookupDom_reduceOneAttr name dm dm₁ e hstep d
      rw [ih dm₁ h]
      cases hld : lookupA d dm with
      | some g =>
        rw [hld] at hstep'
        simp only [hstep']
        simp
      | none =>
        rw [hld] at hstep'
        by_cases hd : e.dq0 = d
        · rw [if_pos hd] at hstep'
          have hpred : (e.dq0 == d) = true := by simp [hd]
          cases hev : getEventName name e.root e.dq1 with
          | none =>
            exfalso
            have hcontra : reduceOneAttr name dm e = none := by
              simp only [reduceOneAttr]
              rw [← hd] at hld
              rw [hld, hev]
            rw [hcontra] at hstep
            exact Option.noConfusion hstep
          | some et =>
            rw [hev] at hstep'
            simp only [hstep']
            simp [List.find?, hpred, hev]
        · rw [if_neg hd] at hstep'
          have hpred : (e.dq0 == d) = false := by simp [hd]
          rw [hstep']
          simp [List.find?, hpred]

/- ---------------------------------------------------------------------
   Bridge: a successful run of the reducer is the event fold.
   --------------------------------------------------------------------- -/

theorem reduceDecl_toFold (name : List Char) (dm dm' : DomainMap)
    (obj : jmxDefinitionParser) (h : reduceDecl name dm obj = some dm') :
    foldOpt (reduceOneAttr name) dm (declEvents obj) = some dm' := by
  unfold reduceDecl at h
  cases hs : splitOnChar ':' obj.ObjectName with
  | nil =>
    rw [hs] at h
    exact Option.noConfusion h
  | cons x xs =>
    cases xs with
    | nil =>
      rw [hs] at h
      by_cases h1 : (lookupA x dm).isSome
      · simp only [h1, if_true] at h
        exact Option.noConfusion h
      · simp only [h1, if_false] at h
        by_cases h2 : obj.Metrics = []
        · simp only [h2, if_true] at h
          simp only [declEvents, hs, foldOpt]
          exact h
        · simp only [h2, if_false] at h
          exact Option.noConfusion h
    | cons y ys =>
      simp only [hs] at h
      exact h

theorem reduce_toFold (name : List Char) (objs : List jmxDefinitionParser)
    (dm dm' : DomainMap) (h : foldOpt (reduceDecl name) dm objs = some dm') :
    foldOpt (reduceOneAttr name) dm ((objs.map declEvents).flatten) = some dm' := by
  induction objs generalizing dm with
  | nil =>
    simpa [foldOpt] using h
  | cons obj objs ih =>
    simp only [foldOpt] at h
    cases hstep : reduceDecl name dm obj with
    | none =>
      rw [hstep] at h
      exact Option.noConfusion h
    | some dm₁ =>
      simp only [hstep] at h
      have h1 := reduceDecl_toFold name dm dm₁ obj hstep
      simp only [List.map_cons, List.flatten_cons]
      rw [foldOpt_append, h1]
      exact ih dm₁ h

theorem reduce_eventsFold (m : mainDefinitionParser) (dm : DomainMap)
    (h : reduceJavaAgentYaml m = some dm) :
    foldOpt (reduceOneAttr m.Name) [] (allEvents m) = some dm :=
  reduce_toFold m.Name m.JMX [] dm h

/- ---------------------------------------------------------------------
   Key uniqueness inside every query group.
   --------------------------------------------------------------------- -/

/-- Every bean of the intermediate model has pairwise-distinct attribute
keys. -/
def attrKeysNodup (dm : DomainMap) : Prop :=
  ∀ p ∈ dm, ∀ bp ∈ p.2.BeansMap, (bp.2.AttributesMap.map Prod.fst).Nodup

theorem attrKeysNodup_reduceOneAttr (name : List Char) (dm dm' : DomainMap)
    (e : AttrEvent) (h : reduceOneAttr name dm e = some dm')
    (hinv : attrKeysNodup dm) : attrKeysNodup dm' := by
  simp only [reduceOneAttr] at h
  cases hdom : lookupA e.dq0 dm with
  | none =>
    simp only [hdom] at h
    cases hev : getEventName name e.root e.dq1 with
    | none =>
      rw [hev] at h
      exact Option.noConfusion h
    | some et =>
      rw [hev] at h
      have hdm' := (Option.some.inj h).symm
      subst hdm'
      intro p hp bp hbp
      rcases List.mem_append.mp hp with hp1 | hp1
      · exact hinv p hp1 bp hbp
      · have hp2 : p = (e.dq0, domainReducer.mk et
            [(e.dq1, beanReducer.mk [(trimSpace e.rawAttr,
              attributeReducer.mk (convertMetricType e.mtype) (trimSpace e.rawAttr))])]) := by
          simpa using hp1
        subst hp2
        simp only at hbp
        have hbp2 : bp = (e.dq1, beanReducer.mk [(trimSpace e.rawAttr,
            attributeReducer.mk (convertMetricType e.mtype) (trimSpace e.rawAttr))]) := by
          simpa using hbp
        subst hbp2
        simp
  | some dom =>
    simp only [hdom] at h
    cases hbean : lookupA e.dq1 dom.BeansMap with
    | none =>
      simp only [hbean] at h
      have hdm' := (Option.some.inj h).symm
      subst hdm'
      intro p hp bp hbp
      rcases mem_updateA _ _ _ _ hp with hp1 | ⟨v, hv, hp1⟩
      · exact hinv p hp1 bp hbp
      · subst hp1
        simp only at hbp
        rcases List.mem_append.mp hbp with hbp1 | hbp1
        · exact hinv (e.dq0, v) (lookupA_mem _ _ _ hv) bp hbp1
        · have hbp2 : bp = (e.dq1, beanReducer.mk [(trimSpace e.rawAttr,
              attributeReducer.mk (convertMetricType e.mtype) (trimSpace e.rawAttr))]) := by
            simpa using hbp1
          subst hbp2
          simp
    | some bean =>
      simp only [hbean] at h
      cases hattr : lookupA (trimSpace e.rawAttr) bean.AttributesMap with
      | some x =>
        simp only [hattr] at h
        have hdm' : dm = dm' := Option.some.inj h
        subst hdm'
        exact hinv
      | none =>
        simp only [hattr] at h
        have hdm' := (Option.some.inj h).symm
        subst hdm'
        intro p hp bp hbp
        rcases mem_updateA _ _ _ _ hp with hp1 | ⟨v, hv, hp1⟩
        · exact hinv p hp1 bp hbp
        · subst hp1
          simp only at hbp
          rcases mem_updateA _ _ _ _ hbp with hbp1 | ⟨b, hb, hbp1⟩
          · exact hinv (e.dq0, v) (lookupA_mem _ _ _ hv) bp hbp1
          · subst hbp1
            have hveq : v = dom := by
              have hd2 := hdom
              rw [hv] at hd2
              exact Option.some.inj hd2
            have hbeq : b = bean := by
              have hb2 := hb
              rw [hveq, hbean] at hb2
              exact (Option.some.inj hb2).symm
            have hnd := hinv (e.dq0, dom) (lookupA_mem _ _ _ hdom) (e.dq1, bean)
              (lookupA_mem _ _ _ hbean)
            have hnotin : trimSpace e.rawAttr ∉ bean.AttributesMap.map Prod.fst :=
              (lookupA_eq_none_iff _ _).mp hattr
            simp only [hbeq, List.map_append, List.map_cons, List.map_nil]
            rw [List.nodup_append]
            refine ⟨hnd, List.nodup_singleton _, ?_⟩
            intro z hz1 hz2
            have hz3 : z = trimSpace e.rawAttr := by simpa using hz2
            subst hz3
            exact hnotin hz1

theorem attrKeysNodup_foldEvents (name : List Char) (evs : List AttrEvent)
    (dm dm' : DomainMap) (h : foldOpt (reduceOneAttr name) dm evs = some dm')
    (hinv : attrKeysNodup dm) : attrKeysNodup dm' := by
  induction evs generalizing dm with
  | nil =>
    simp only [foldOpt] at h
    have hdm' : dm = dm' := Option.some.inj h
    subst hdm'
    exact hinv
  | cons e evs ih =>
    simp only [foldOpt] at h
    cases hstep : reduceOneAttr name dm e with
    | none =>
      rw [hstep] at h
      exact Option.noConfusion h
    | some dm₁ =>
      rw [hstep] at h
      exact ih dm₁ h (attrKeysNodup_reduceOneAttr name dm dm₁ e hstep hinv)

theorem attrKeysNodup_reduce (m : mainDefinitionParser) (dm : DomainMap)
    (h : reduceJavaAgentYaml m = some dm) : attrKeysNodup dm :=
  attrKeysNodup_foldEvents m.Name (allEvents m) [] dm (reduce_eventsFold m dm h)
    (fun p hp => absurd hp (List.not_mem_nil p))

/- ---------------------------------------------------------------------
   Membership characterisations.
   --------------------------------------------------------------------- -/

theorem mem_declEvents (obj : jmxDefinitionParser) (ev : AttrEvent) :
    ev ∈ declEvents obj ↔
      (∃ rest, splitOnChar ':' obj.ObjectName = ev.dq0 :: ev.dq1 :: rest) ∧
      ev.root = obj.RootMetricName ∧
      ∃ met ∈ obj.Metrics, ev.mtype = met.Type' ∧
        ev.rawAttr ∈ splitOnChar ',' met.Attributes := by
  unfold declEvents
  cases hs : splitOnChar ':' obj.ObjectName with
  | nil => simp
  | cons x xs =>
    cases xs with
    | nil => simp
    | cons y t =>
      simp only [List.mem_flatten, List.mem_map]
      constructor
      · rintro ⟨l, ⟨met, hmet, rfl⟩, hev⟩
        obtain ⟨a, ha, rfl⟩ := List.mem_map.mp hev
        exact ⟨⟨t, rfl⟩, rfl, met, hmet, rfl, ha⟩
      · rintro ⟨⟨rest, hr⟩, hroot, met, hmet, hmt, hraw⟩
        injection hr with h1 hr'
        injection hr' with h2 h3
        refine ⟨(splitOnChar ',' met.Attributes).map (fun a =>
          AttrEvent.mk obj.RootMetricName x y met.Type' a), ⟨met, hmet, rfl⟩, ?_⟩
        rw [List.mem_map]
        refine ⟨ev.rawAttr, hraw, ?_⟩
        cases ev
        simp_all

theorem mem_allEvents (m : mainDefinitionParser) (ev : AttrEvent) :
    ev ∈ allEvents m ↔ ∃ obj ∈ m.JMX, ev ∈ declEvents obj := by
  simp [allEvents, List.mem_flatten]

theorem find?_isSome_of_mem {α : Type} (p : α → Bool) (l : List α) (x : α)
    (hx : x ∈ l) (hp : p x = true) : ∃ y, l.find? p = some y := by
  induction l with
  | nil => cases hx
  | cons a l' ih =>
    by_cases ha : p a = true
    · exact ⟨a, by simp [List.find?, ha]⟩
    · rcases List.mem_cons.mp hx with h1 | h1
      · subst h1
        exact absurd hp ha
      · obtain ⟨y, hy⟩ := ih h1
        exact ⟨y, by simp [List.find?, Bool.eq_false_iff.mpr ha, hy]⟩

theorem find?_mem_and_pred {α : Type} (p : α → Bool) (l : List α) (y : α)
    (hy : l.find? p = some y) : y ∈ l ∧ p y = true := by
  induction l with
  | nil => cases hy
  | cons a l' ih =>
    cases ha : p a with
    | true =>
      rw [List.find?, ha] at hy
      have : a = y := Option.some.inj hy
      subst this
      exact ⟨List.mem_cons_self a l', ha⟩
    | false =>
      rw [List.find?, ha] at hy
      obtain ⟨h1, h2⟩ := ih hy
      exact ⟨List.mem_cons_of_mem a h1, h2⟩

/-- An attribute entry reachable by lookup appears in the emitted canonical
output: its domain record, bean record and attribute record are all present. -/
theorem buildCollection_contains (dm : DomainMap) (d q a : List Char)
    (en : attributeReducer) (h : lookupAttr dm d q a = some en) :
    ∃ dout ∈ buildCollectionDefinition dm, dout.Domain = d ∧
      ∃ bout ∈ dout.Beans, bout.Query = q ∧
        attributeOutput.mk a en.MetricType en.MetricName ∈ bout.Attributes := by
  simp only [lookupAttr] at h
  cases hld : lookupA d dm with
  | none => rw [hld] at h; cases h
  | some dom =>
    rw [hld] at h
    simp only [Option.some_bind] at h
    cases hlq : lookupA q dom.BeansMap with
    | none => rw [hlq] at h; cases h
    | some bean =>
      rw [hlq] at h
      simp only [Option.some_bind] at h
      refine ⟨domainOutput.mk d dom.EventType (dom.BeansMap.map (fun bp =>
        beanOutput.mk bp.1 (bp.2.AttributesMap.map (fun ap =>
          attributeOutput.mk ap.1 ap.2.MetricType ap.2.MetricName)))), ?_, rfl, ?_⟩
      · simp only [buildCollectionDefinition, List.mem_map]
        exact ⟨(d, dom), lookupA_mem _ _ _ hld, rfl⟩
      · refine ⟨beanOutput.mk q (bean.AttributesMap.map (fun ap =>
          attributeOutput.mk ap.1 ap.2.MetricType ap.2.MetricName)), ?_, rfl, ?_⟩
        · simp only [List.mem_map]
          exact ⟨(q, bean), lookupA_mem _ _ _ hlq, rfl⟩
        · simp only [List.mem_map]
          exact ⟨(a, en), lookupA_mem _ _ _ h, rfl⟩

/- ---------------------------------------------------------------------
   Panic characterisations.
   --------------------------------------------------------------------- -/

theorem splitOnChar_singleton_of_no_sep (sep : Char) (cs : List Char)
    (h : sep ∉ cs) : splitOnChar sep cs = [cs] :=
  splitOnChar_of_not_mem sep cs h

theorem buildQueryMap_none (qs : List (List Char)) (seg : List Char)
    (hseg : seg ∈ qs) (hne : '=' ∉ seg) : buildQueryMap qs = none := by
  apply foldOpt_none_of_mem _ _ _ seg hseg
  intro b'
  rw [splitOnChar_of_not_mem '=' seg hne]

/- ---------------------------------------------------------------------
   Splitting a pair at its first separator: how the all-occurrence split
   of the source relates to the spec's first-occurrence wording.
   --------------------------------------------------------------------- -/

theorem exists_first_sep (sep : Char) (p : List Char) (h : sep ∈ p) :
    ∃ xs ys, p = xs ++ sep :: ys ∧ sep ∉ xs := by
  induction p with
  | nil => cases h
  | cons c rest ih =>
    by_cases hc : c = sep
    · exact ⟨[], rest, by simp [hc], by simp⟩
    · have hr : sep ∈ rest := by
        rcases List.mem_cons.mp h with h1 | h1
        · exact absurd h1.symm hc
        · exact h1
      obtain ⟨xs, ys, hp, hxs⟩ := ih hr
      refine ⟨c :: xs, ys, by rw [List.cons_append, ← hp], ?_⟩
      intro hmem
      rcases List.mem_cons.mp hmem with h1 | h1
      · exact hc h1.symm
      · exact hxs h1

theorem takeWhile_first (sep : Char) (xs ys : List Char) (hxs : sep ∉ xs) :
    (xs ++ sep :: ys).takeWhile (fun c => c != sep) = xs := by
  induction xs with
  | nil => simp
  | cons c rest ih =>
    have hc : ¬ c = sep := fun hh => hxs (hh ▸ List.mem_cons_self c rest)
    have hr : sep ∉ rest := fun hh => hxs (List.mem_cons_of_mem c hh)
    simp [List.takeWhile_cons, hc, ih hr]

theorem dropWhile_first (sep : Char) (xs ys : List Char) (hxs : sep ∉ xs) :
    (xs ++ sep :: ys).dropWhile (fun c => c != sep) = sep :: ys := by
  induction xs with
  | nil => simp
  | cons c rest ih =>
    have hc : ¬ c = sep := fun hh => hxs (hh ▸ List.mem_cons_self c rest)
    have hr : sep ∉ rest := fun hh => hxs (List.mem_cons_of_mem c hh)
    simp [List.dropWhile_cons, hc, ih hr]

/-- When a pair contains the separator, the all-occurrence split starts with
the text before the first separator, followed by the text between the first
and second separator. -/
theorem splitOnChar_mem_decomp (sep : Char) (p : List Char) (h : sep ∈ p) :
    ∃ t, splitOnChar sep p =
      p.takeWhile (fun c => c != sep) ::
        ((p.dropWhile (fun c => c != sep)).drop 1).takeWhile (fun c => c != sep) :: t := by
  obtain ⟨xs, ys, hp, hxs⟩ := exists_first_sep sep p h
  subst hp
  rw [splitOnChar_append_sep, splitOnChar_of_not_mem sep xs hxs]
  obtain ⟨t, ht⟩ := splitOnChar_head sep ys
  rw [ht, takeWhile_first sep xs ys hxs, dropWhile_first sep xs ys hxs]
  exact ⟨t, by simp⟩

theorem foldOpt_congr {α β : Type} (f g : β → α → Option β)
    (hfg : ∀ b x, f b x = g b x) (b : β) (l : List α) :
    foldOpt f b l = foldOpt g b l := by
  induction l generalizing b with
  | nil => rfl
  | cons a l' ih =>
    simp only [foldOpt, hfg b a]
    cases g b a with
    | none => rfl
    | some b' => exact ih b'

/- ---------------------------------------------------------------------
   Spec-worded resolvers for claim C5.
   --------------------------------------------------------------------- -/

/-- Formalisation of the resolver exactly as claim C5 words it: split the
query on ',' and each pair on the FIRST '=', the value being EVERYTHING
after the first '='; substitute every matched placeholder with a key in the
mapping; return the sanitised `appName ++ "_" ++ template`.  (Total: the
claim describes no failure.) -/
def getEventNameSpecC5 (appName template query : List Char) : List Char :=
  let appName' := if appName = [] then defaultEventType else appName
  if template = [] then makeInsightsCompliantEventType appName'
  else
    let qmap := (splitOnChar ',' query).foldl (fun m p =>
      updateOrInsertA (p.takeWhile (fun c => c != '='))
        ((p.dropWhile (fun c => c != '=')).drop 1) m) []
    makeInsightsCompliantEventType
      (appName' ++ '_' :: substituteAll (findPlaceholders template) qmap template)

/-- Claim C5 amended to what the source does: the query is parsed only when
the template contains a "{\w+}" placeholder; each comma-segment must contain
an '=' (otherwise the run dies, claim C9); and the stored value is the text
between the first and the second '=' of the segment, not everything after
the first '='. -/
def getEventNameSpecC5Amended (appName template query : List Char) :
    Option (List Char) :=
  let appName' := if appName = [] then defaultEventType else appName
  if template = [] then some (makeInsightsCompliantEventType appName')
  else
    let matched := findPlaceholders template
    if matched = [] then
      some (makeInsightsCompliantEventType (appName' ++ '_' :: template))
    else
      match foldOpt (fun m p =>
        if '=' ∈ p then
          some (updateOrInsertA (p.takeWhile (fun c => c != '='))
            (((p.dropWhile (fun c => c != '=')).drop 1).takeWhile (fun c => c != '='))
            m)
        else none) [] (splitOnChar ',' query) with
      | none => none
      | some qmap =>
        some (makeInsightsCompliantEventType
          (appName' ++ '_' :: substituteAll matched qmap template))

theorem buildQueryMap_eq_spec (qs : List (List Char)) :
    buildQueryMap qs = foldOpt (fun m p =>
      if '=' ∈ p then
        some (updateOrInsertA (p.takeWhile (fun c => c != '='))
          (((p.dropWhile (fun c => c != '=')).drop 1).takeWhile (fun c => c != '='))
          m)
      else none) [] qs := by
  apply foldOpt_congr
  intro m p
  by_cases h : '=' ∈ p
  · obtain ⟨t, ht⟩ := splitOnChar_mem_decomp '=' p h
    rw [ht, if_pos h]
  · rw [splitOnChar_of_not_mem '=' p h, if_neg h]

theorem getEventName_eq_specAmended (appName template query : List Char) :
    getEventName appName template query =
      getEventNameSpecC5Amended appName template query := by
  unfold getEventName getEventNameSpecC5Amended
  rw [buildQueryMap_eq_spec]

/- ---------------------------------------------------------------------
   Reduce-level characterisations (from the empty initial map).
   --------------------------------------------------------------------- -/

/-- The attribute entry stored at (d, q, a) is fully determined by the first
attribute event of the document that carries this domain, query and trimmed
attribute name. -/
theorem lookupAttr_reduce (m : mainDefinitionParser) (dm : DomainMap)
    (h : reduceJavaAgentYaml m = some dm) (d q a : List Char) :
    lookupAttr dm d q a =
      ((allEvents m).find?
          (fun e => e.dq0 == d && e.dq1 == q && trimSpace e.rawAttr == a)).map
        (fun e => attributeReducer.mk (convertMetricType e.mtype) a) := by
  have hchar := lookupAttr_foldEvents m.Name (allEvents m) [] dm
    (reduce_eventsFold m dm h) d q a
  have h0 : lookupAttr [] d q a = none := rfl
  rw [h0] at hchar
  exact hchar

/-- The event type stored for a domain is fully determined by the first
attribute event of the document that carries this domain. -/
theorem lookupDom_reduce (m : mainDefinitionParser) (dm : DomainMap)
    (h : reduceJavaAgentYaml m = some dm) (d : List Char) :
    (lookupA d dm).map domainReducer.EventType =
      ((allEvents m).find? (fun e => e.dq0 == d)).bind
        (fun e => getEventName m.Name e.root e.dq1) := by
  have hchar := lookupDom_foldEvents m.Name (allEvents m) [] dm
    (reduce_eventsFold m dm h) d
  have h0 : (lookupA d ([] : DomainMap)).map domainReducer.EventType = none := rfl
  rw [h0] at hchar
  exact hchar

/- ---------------------------------------------------------------------
   Claim theorems.
   --------------------------------------------------------------------- -/

/-- C1: in a successful reduction, every attribute entry stored at
domain `d`, query `q`, attribute `a` carries the metric kind
`convertMetricType` of the kind string of the FIRST metric-group
comma-segment (attribute event, in declaration/metric/segment processing
order) whose domain, query and trimmed attribute name are `(d, q, a)`;
later occurrences of the same triple never overwrite it (the stored entry
depends only on the first match), and attribute names are unique keys
within every query group. -/
theorem C1_first_declaration_fixes_metric_kind (m : mainDefinitionParser)
    (dm : DomainMap) (h : reduceJavaAgentYaml m = some dm) :
    (∀ d q a en, lookupAttr dm d q a = some en →
      ∃ ev, (allEvents m).find?
          (fun e => e.dq0 == d && e.dq1 == q && trimSpace e.rawAttr == a) = some ev ∧
        en.MetricType = convertMetricType ev.mtype ∧ en.MetricName = a) ∧
    attrKeysNodup dm := by
  constructor
  · intro d q a en hen
    rw [lookupAttr_reduce m dm h d q a] at hen
    obtain ⟨ev, hev, hfn⟩ := Option.map_eq_some'.mp hen
    exact ⟨ev, hev, by rw [← hfn], by rw [← hfn]⟩
  · exact attrKeysNodup_reduce m dm h

/-- C2: in a successful reduction, the attribute names present under
domain `d` and query `q` are exactly the union, over the declarations whose
object name splits as `d :: q :: _`, of the trimmed comma-segments of their
metric groups' attribute strings; and there are no duplicate attribute
entries (keys are unique within every query group). -/
theorem C2_attribute_union (m : mainDefinitionParser) (dm : DomainMap)
    (h : reduceJavaAgentYaml m = some dm) :
    (∀ d q a, (lookupAttr dm d q a).isSome ↔
      ∃ obj ∈ m.JMX, (∃ rest, splitOnChar ':' obj.ObjectName = d :: q :: rest) ∧
        ∃ met ∈ obj.Metrics, ∃ raw ∈ splitOnChar ',' met.Attributes,
          trimSpace raw = a) ∧
    attrKeysNodup dm := by
  constructor
  · intro d q a
    rw [lookupAttr_reduce m dm h d q a]
    constructor
    · intro hs
      obtain ⟨ev, hev⟩ := Option.isSome_iff_exists.mp hs
      obtain ⟨y, hy⟩ := Option.map_eq_some'.mp hev
      obtain ⟨hymem, hypred⟩ := find?_mem_and_pred _ _ _ hy.1
      simp only [Bool.and_eq_true, beq_iff_eq] at hypred
      obtain ⟨obj, hobj, hydecl⟩ := (mem_allEvents m y).mp hymem
      obtain ⟨⟨rest, hrest⟩, hroot, met, hmet, hmt, hraw⟩ :=
        (mem_declEvents obj y).mp hydecl
      refine ⟨obj, hobj, ⟨rest, ?_⟩, met, hmet, y.rawAttr, hraw, hypred.2⟩
      rw [hrest, hypred.1.1, hypred.1.2]
    · rintro ⟨obj, hobj, ⟨rest, hrest⟩, met, hmet, raw, hraw, htrim⟩
      have hmem : AttrEvent.mk obj.RootMetricName d q met.Type' raw ∈ allEvents m := by
        rw [mem_allEvents]
        refine ⟨obj, hobj, ?_⟩
        rw [mem_declEvents]
        exact ⟨⟨rest, hrest⟩, rfl, met, hmet, rfl, hraw⟩
      have hpred : (fun e => e.dq0 == d && e.dq1 == q && trimSpace e.rawAttr == a)
          (AttrEvent.mk obj.RootMetricName d q met.Type' raw) = true := by
        simp [htrim]
      obtain ⟨y, hy⟩ := find?_isSome_of_mem
        (fun e => e.dq0 == d && e.dq1 == q && trimSpace e.rawAttr == a)
        (allEvents m) _ hmem hpred
      rw [hy]
      simp
  · exact attrKeysNodup_reduce m dm h

/- ---------------------------------------------------------------------
   Concrete documents used as witnesses and counterexamples.
   --------------------------------------------------------------------- -/

/-- Two declarations over the same domain and query: the second declares
attribute "used" again with a different kind, which the reducer ignores. -/
def mW1 : mainDefinitionParser :=
  mainDefinitionParser.mk "MyApp".toList
    [jmxDefinitionParser.mk "java.lang:type=Memory".toList []
      [metricsDefinitionParser.mk "used, max".toList "simple".toList],
     jmxDefinitionParser.mk "java.lang:type=Memory".toList []
      [metricsDefinitionParser.mk "used".toList "monotonically_increasing".toList]]

/-- The intermediate model produced by reducing `mW1`. -/
def dmW1 : DomainMap :=
  [("java.lang".toList, domainReducer.mk "MyApp".toList
    [("type=Memory".toList, beanReducer.mk
      [("used".toList, attributeReducer.mk "gauge".toList "used".toList),
       ("max".toList, attributeReducer.mk "gauge".toList "max".toList)])])]


/-- A DomainMap of `mW1`'s "java.lang" group, named for witness reuse. -/
def domW1 : domainReducer :=
  domainReducer.mk "MyApp".toList
    [("type=Memory".toList, beanReducer.mk
      [("used".toList, attributeReducer.mk "gauge".toList "used".toList),
       ("max".toList, attributeReducer.mk "gauge".toList "max".toList)])]

/-- Document for the C3 counterexample: the first declaration for domain
"d" has no metric groups (template "X"), the second one (template "Y")
actually creates the domain group. -/
def mC3 : mainDefinitionParser :=
  mainDefinitionParser.mk "A".toList
    [jmxDefinitionParser.mk "d:q".toList "X".toList [],
     jmxDefinitionParser.mk "d:q2".toList "Y".toList
       [metricsDefinitionParser.mk "count".toList "simple".toList]]

/-- The intermediate model produced by reducing `mC3`. -/
def dmC3 : DomainMap :=
  [("d".toList, domainReducer.mk "A_Y".toList
    [("q2".toList, beanReducer.mk
      [("count".toList, attributeReducer.mk "gauge".toList "count".toList)])])]

/-- Document for the C4 counterexample: the object name carries two colons. -/
def mC4 : mainDefinitionParser :=
  mainDefinitionParser.mk "A".toList
    [jmxDefinitionParser.mk "d:k=v:extra".toList []
      [metricsDefinitionParser.mk "attr1".toList "simple".toList]]

/-- The intermediate model produced by reducing `mC4`: the bean key is the
text between the two colons, not the whole remainder. -/
def dmC4 : DomainMap :=
  [("d".toList, domainReducer.mk "A".toList
    [("k=v".toList, beanReducer.mk
      [("attr1".toList, attributeReducer.mk "gauge".toList "attr1".toList)])])]


/-- C3 is false as stated: the first declaration observed for domain "d" is
the one with template "X" and query "q", so the claim predicts event type
`resolver("A", "X", "q") = "A_X"`; but that declaration has no metric
groups, so the source creates the `DomainGroup` only at the second
declaration and stores `"A_Y"` computed from template "Y" and query "q2". -/
theorem C3_counterexample :
    reduceJavaAgentYaml mC3 = some dmC3 ∧
    mC3.JMX.find? (fun obj =>
      (splitOnChar ':' obj.ObjectName).headD [] == "d".toList) =
      some (jmxDefinitionParser.mk "d:q".toList "X".toList []) ∧
    getEventName "A".toList "X".toList "q".toList = some "A_X".toList ∧
    (lookupA "d".toList dmC3).map domainReducer.EventType = some "A_Y".toList ∧
    ("A_Y".toList : List Char) ≠ "A_X".toList := by
  refine ⟨by decide, by decide, by decide, by decide, by decide⟩

/-- C3 amended: the event type of a domain group is computed exactly once,
when the group is created, from the declaration that carries the FIRST
attribute event for that domain — i.e. the first declaration for the domain
that has at least one metric group — using that declaration's root template
and query; later declarations (and earlier declarations with no metric
groups) never set or change it. -/
theorem C3_amended_eventType_from_first_contributing_declaration
    (m : mainDefinitionParser) (dm : DomainMap)
    (h : reduceJavaAgentYaml m = some dm) (d : List Char) (g : domainReducer)
    (hg : lookupA d dm = some g) :
    ∃ ev, (allEvents m).find? (fun e => e.dq0 == d) = some ev ∧
      getEventName m.Name ev.root ev.dq1 = some g.EventType := by
  have hchar := lookupDom_reduce m dm h d
  rw [hg] at hchar
  exact Option.bind_eq_some.mp hchar.symm

/-- Witness for the amended C3 at the concrete document `mC3`. -/
theorem C3_witness :
    ∃ ev, (allEvents mC3).find? (fun e => e.dq0 == "d".toList) = some ev ∧
      getEventName mC3.Name ev.root ev.dq1 =
        some (domainReducer.mk "A_Y".toList
          [("q2".toList, beanReducer.mk
            [("count".toList,
              attributeReducer.mk "gauge".toList "count".toList)])]).EventType :=
  C3_amended_eventType_from_first_contributing_declaration mC3 dmC3 (by decide)
    "d".toList _ (by decide)

/-- C4 is false as stated: for the pattern "d:k=v:extra" the claim says the
query — grouping key and substitution source — is the entire remainder
"k=v:extra" after the first colon; the source splits on every colon and
uses element 1, so the stored grouping key is "k=v" and no group exists
under "k=v:extra". -/
theorem C4_counterexample :
    reduceJavaAgentYaml mC4 = some dmC4 ∧
    (lookupAttr dmC4 "d".toList "k=v".toList "attr1".toList).isSome ∧
    lookupAttr dmC4 "d".toList "k=v:extra".toList "attr1".toList = none := by
  refine ⟨by decide, by decide, by decide⟩

/-- C4 amended: the reduction splits the object name on EVERY colon; the
domain is the text before the first colon and the query used as grouping
key and substitution source is the text between the first and the second
colon (equal to the whole remainder only when the pattern has exactly one
colon).  Stated for a pattern `d ++ ":" ++ q` with no colon in `d`: the
resulting map groups under domain `d` and query `q.takeWhile (≠ ':')`, and
resolves the event type from that query text. -/
theorem C4_amended_split_between_colons (name root d q attrs mt : List Char)
    (hd : ':' ∉ d) (dm' : DomainMap)
    (h : reduceDecl name [] (jmxDefinitionParser.mk (d ++ ':' :: q) root
      [metricsDefinitionParser.mk attrs mt]) = some dm') :
    ∃ dom, lookupA d dm' = some dom ∧
      (lookupA (q.takeWhile (fun c => c != ':')) dom.BeansMap).isSome ∧
      getEventName name root (q.takeWhile (fun c => c != ':')) =
        some dom.EventType := by
  obtain ⟨t, ht⟩ := splitOnChar_head ':' q
  have hsplit : splitOnChar ':' (d ++ ':' :: q) =
      d :: q.takeWhile (fun c => c != ':') :: t := by
    rw [splitOnChar_append_sep, splitOnChar_of_not_mem ':' d hd, ht]
    rfl
  have hfold := reduceDecl_toFold name [] dm' _ h
  obtain ⟨seg0, segs, hsegs⟩ := splitOnChar_cons_of_ne_nil ',' attrs
  have hevs : declEvents (jmxDefinitionParser.mk (d ++ ':' :: q) root
      [metricsDefinitionParser.mk attrs mt]) =
      (splitOnChar ',' attrs).map (fun a =>
        AttrEvent.mk root d (q.takeWhile (fun c => c != ':')) mt a) := by
    simp [declEvents, hsplit]
  rw [hevs, hsegs, List.map_cons] at hfold
  have hattr := lookupAttr_foldEvents name _ [] dm' hfold d
    (q.takeWhile (fun c => c != ':')) (trimSpace seg0)
  have h0 : lookupAttr [] d (q.takeWhile (fun c => c != ':')) (trimSpace seg0) =
      none := rfl
  rw [h0] at hattr
  have hfind : (AttrEvent.mk root d (q.takeWhile (fun c => c != ':')) mt seg0 ::
      segs.map (fun a =>
        AttrEvent.mk root d (q.takeWhile (fun c => c != ':')) mt a)).find?
      (fun e => e.dq0 == d && e.dq1 == q.takeWhile (fun c => c != ':') &&
        trimSpace e.rawAttr == trimSpace seg0) =
      some (AttrEvent.mk root d (q.takeWhile (fun c => c != ':')) mt seg0) := by
    simp [List.find?]
  rw [hfind] at hattr
  have hdomevt := lookupDom_foldEvents name _ [] dm' hfold d
  have h0' : (lookupA d ([] : DomainMap)).map domainReducer.EventType = none := rfl
  rw [h0'] at hdomevt
  have hfind' : (AttrEvent.mk root d (q.takeWhile (fun c => c != ':')) mt seg0 ::
      segs.map (fun a =>
        AttrEvent.mk root d (q.takeWhile (fun c => c != ':')) mt a)).find?
      (fun e => e.dq0 == d) =
      some (AttrEvent.mk root d (q.takeWhile (fun c => c != ':')) mt seg0) := by
    simp [List.find?]
  rw [hfind'] at hdomevt
  simp only [lookupAttr] at hattr
  cases hld : lookupA d dm' with
  | none =>
    rw [hld] at hattr
    exact Option.noConfusion hattr
  | some dom =>
    rw [hld] at hattr
    simp only [Option.some_bind] at hattr
    refine ⟨dom, rfl, ?_, ?_⟩
    · cases hlq : lookupA (q.takeWhile (fun c => c != ':')) dom.BeansMap with
      | none =>
        rw [hlq] at hattr
        exact Option.noConfusion hattr
      | some bean => simp
    · rw [hld] at hdomevt
      exact hdomevt.symm

/-- Witness for the amended C4 at the concrete pattern "d:k=v:extra". -/
theorem C4_witness :
    ∃ dom, lookupA "d".toList dmC4 = some dom ∧
      (lookupA ("k=v:extra".toList.takeWhile (fun c => c != ':'))
        dom.BeansMap).isSome ∧
      getEventName "A".toList [] ("k=v:extra".toList.takeWhile (fun c => c != ':')) =
        some dom.EventType :=
  C4_amended_split_between_colons "A".toList [] "d".toList "k=v:extra".toList
    "attr1".toList "simple".toList (by decide) dmC4 (by decide)

/-- Witness for C1 at the concrete document `mW1` (attribute "used" is
declared twice, first as "simple", later as "monotonically_increasing";
the stored kind is "gauge", from the first declaration). -/
theorem C1_witness :
    (∀ d q a en, lookupAttr dmW1 d q a = some en →
      ∃ ev, (allEvents mW1).find?
          (fun e => e.dq0 == d && e.dq1 == q && trimSpace e.rawAttr == a) = some ev ∧
        en.MetricType = convertMetricType ev.mtype ∧ en.MetricName = a) ∧
    attrKeysNodup dmW1 :=
  C1_first_declaration_fixes_metric_kind mW1 dmW1 (by decide)

/-- Witness for C2 at the concrete document `mW1`. -/
theorem C2_witness :
    (∀ d q a, (lookupAttr dmW1 d q a).isSome ↔
      ∃ obj ∈ mW1.JMX, (∃ rest, splitOnChar ':' obj.ObjectName = d :: q :: rest) ∧
        ∃ met ∈ obj.Metrics, ∃ raw ∈ splitOnChar ',' met.Attributes,
          trimSpace raw = a) ∧
    attrKeysNodup dmW1 :=
  C2_attribute_union mW1 dmW1 (by decide)

/-- C5 is false as stated: for appName "A", template "Pool_{name}" and
query "name=a=b" the claim's resolver (value = everything after the first
'=') yields "A_Pool_a=b", while the source splits the pair on every '='
and stores element 1, yielding "A_Pool_a". -/
theorem C5_counterexample :
    getEventName "A".toList "Pool_{name}".toList "name=a=b".toList =
      some "A_Pool_a".toList ∧
    getEventNameSpecC5 "A".toList "Pool_{name}".toList "name=a=b".toList =
      "A_Pool_a=b".toList ∧
    ("A_Pool_a".toList : List Char) ≠ "A_Pool_a=b".toList := by
  refine ⟨by decide, by decide, by decide⟩

/-- C5 amended: for every appName, non-empty template and query, the
resolver behaves as the claim says except that (a) the query is parsed only
when the template contains a placeholder, (b) each comma-segment must
contain an '=' or the run dies, and (c) the value stored for a pair is the
text between the first and the second '=' of the segment — not everything
after the first '='. -/
theorem C5_amended_resolver_equivalence (appName template query : List Char)
    (ht : template ≠ []) :
    getEventName appName template query =
      getEventNameSpecC5Amended appName template query :=
  getEventName_eq_specAmended appName template query

/-- Witness for the amended C5 at a concrete input. -/
theorem C5_witness :
    ("Pool_{name}".toList : List Char) ≠ [] ∧
    getEventName "A".toList "Pool_{name}".toList "name=a=b".toList =
      getEventNameSpecC5Amended "A".toList "Pool_{name}".toList "name=a=b".toList :=
  ⟨by decide, C5_amended_resolver_equivalence "A".toList "Pool_{name}".toList
    "name=a=b".toList (by decide)⟩

/-- C6 is false as stated: the claim maps every string other than the two
literals "simple" and "monotonically_increasing" to "gauge", but the source
trims its input first, so the distinct string " monotonically_increasing"
(leading space) yields "delta". -/
theorem C6_counterexample :
    convertMetricType " monotonically_increasing".toList = "delta".toList ∧
    (" monotonically_increasing".toList : List Char) ≠ "simple".toList ∧
    (" monotonically_increasing".toList : List Char) ≠
      "monotonically_increasing".toList ∧
    ("delta".toList : List Char) ≠ "gauge".toList := by
  refine ⟨by decide, by decide, by decide, by decide⟩

/-- C6 amended: the mapping is applied to the whitespace-trimmed input:
trimmed "simple" gives "gauge", trimmed "monotonically_increasing" gives
"delta", anything else gives "gauge"; the function is total and only ever
returns "gauge" or "delta" (never an error). -/
theorem C6_amended_convertMetricType :
    convertMetricType "simple".toList = "gauge".toList ∧
    convertMetricType "monotonically_increasing".toList = "delta".toList ∧
    convertMetricType [] = "gauge".toList ∧
    convertMetricType "bogus".toList = "gauge".toList ∧
    (∀ s, trimSpace s ≠ "monotonically_increasing".toList →
      convertMetricType s = "gauge".toList) ∧
    (∀ s, convertMetricType s = "gauge".toList ∨
      convertMetricType s = "delta".toList) := by
  refine ⟨by decide, by decide, by decide, by decide, ?_, ?_⟩
  · intro s hs
    unfold convertMetricType
    by_cases h1 : trimSpace s = "simple".toList
    · rw [if_pos h1]
    · rw [if_neg h1, if_neg hs]
  · intro s
    unfold convertMetricType
    by_cases h1 : trimSpace s = "simple".toList
    · rw [if_pos h1]
      exact Or.inl rfl
    · rw [if_neg h1]
      by_cases h2 : trimSpace s = "monotonically_increasing".toList
      · rw [if_pos h2]
        exact Or.inr rfl
      · rw [if_neg h2]
        exact Or.inl rfl

/-- Witness for the guarded part of the amended C6. -/
theorem C6_witness :
    trimSpace "xyz".toList ≠ "monotonically_increasing".toList ∧
    convertMetricType "xyz".toList = "gauge".toList :=
  ⟨by decide, C6_amended_convertMetricType.2.2.2.2.1 "xyz".toList (by decide)⟩

/-- Two linearisations of the same two-domain intermediate model, differing
only in enumeration order (a Go map enumerates its entries in an
unspecified order, so both orders occur as runs). -/
def dmC7a : DomainMap :=
  [("a".toList, domainReducer.mk "EA".toList []),
   ("b".toList, domainReducer.mk "EB".toList [])]

/-- The same model as `dmC7a`, enumerated in the opposite order. -/
def dmC7b : DomainMap :=
  [("b".toList, domainReducer.mk "EB".toList []),
   ("a".toList, domainReducer.mk "EA".toList [])]

/-- C7 is false as stated: the emitter is a map over the enumeration of the
domain mapping, and two enumerations of one and the same mapping (equal as
maps: a permutation with identical lookups) emit differently ordered
documents.  Since a Go map's range order is unspecified, two runs on equal
models need not produce identical output. -/
theorem C7_counterexample :
    List.Perm dmC7a dmC7b ∧
    (∀ k, lookupA k dmC7a = lookupA k dmC7b) ∧
    buildCollectionDefinition dmC7a ≠ buildCollectionDefinition dmC7b := by
  refine ⟨List.Perm.swap _ _ _, ?_, by decide⟩
  intro k
  simp only [dmC7a, dmC7b, lookupA]
  by_cases h1 : "a".toList = k
  · by_cases h2 : "b".toList = k
    · exact absurd (h1.trans h2.symm) (by decide)
    · simp only [if_pos h1, if_neg h2]
  · by_cases h2 : "b".toList = k
    · simp only [if_neg h1, if_pos h2]
    · simp only [if_neg h1, if_neg h2]

/-- C7 amended: emission is deterministic only up to reordering — for any
two enumerations of equal intermediate models (permutations of the same
entries) the emitted domain records are permutations of each other; output
is identical only once an enumeration order is fixed, which the source's
built-in maps do not provide. -/
theorem C7_amended_emission_deterministic_up_to_permutation
    (dm1 dm2 : DomainMap) (h : List.Perm dm1 dm2) :
    List.Perm (buildCollectionDefinition dm1) (buildCollectionDefinition dm2) := by
  unfold buildCollectionDefinition
  exact h.map _

/-- Witness for the amended C7 at the concrete model. -/
theorem C7_witness :
    List.Perm (buildCollectionDefinition dmC7a) (buildCollectionDefinition dmC7b) :=
  C7_amended_emission_deterministic_up_to_permutation dmC7a dmC7b
    (List.Perm.swap _ _ _)

/-- C8: a declaration whose object name has no colon kills the reduction
(out-of-range read of the query component, modelled as `none`) as soon as
its domain is already present in the intermediate model (source line 120)
or it has any metric group — each metric group contributes at least one
comma-segment, hence one attribute (source line 137).  No error value is
produced: the Go function's `error` result is always `nil`, the failure is
a runtime index panic. -/
theorem C8_no_colon_panics (name : List Char) (dm : DomainMap)
    (obj : jmxDefinitionParser) (hnc : ':' ∉ obj.ObjectName)
    (h : obj.Metrics ≠ [] ∨ (lookupA obj.ObjectName dm).isSome) :
    reduceDecl name dm obj = none := by
  unfold reduceDecl
  rw [splitOnChar_of_not_mem ':' obj.ObjectName hnc]
  rcases h with h | h
  · by_cases h1 : (lookupA obj.ObjectName dm).isSome
    · simp [h1]
    · simp [h1, h]
  · simp [h]

/-- Witness for C8 at a colon-free pattern with one metric group. -/
theorem C8_witness :
    reduceDecl [] [] (jmxDefinitionParser.mk "nocolon".toList []
      [metricsDefinitionParser.mk "a".toList "simple".toList]) = none :=
  C8_no_colon_panics [] [] _ (by decide) (Or.inl (by decide))

/-- C9: when the template is non-empty and contains a "{\w+}" placeholder,
and some comma-segment of the query contains no '=', the resolver's pair
split has no element 1 and the run dies with an out-of-range access
(modelled as `none`): no string is returned and the malformed pair is not
skipped. -/
theorem C9_malformed_query_pair_panics (name root query : List Char)
    (hroot : root ≠ []) (hph : findPlaceholders root ≠ [])
    (hq : ∃ seg ∈ splitOnChar ',' query, '=' ∉ seg) :
    getEventName name root query = none := by
  obtain ⟨seg, hseg, hne⟩ := hq
  simp only [getEventName]
  rw [if_neg hroot, if_neg hph,
    buildQueryMap_none (splitOnChar ',' query) seg hseg hne]

/-- Witness for C9 at a concrete malformed query. -/
theorem C9_witness :
    ("{x}".toList : List Char) ≠ [] ∧
    findPlaceholders "{x}".toList ≠ [] ∧
    (∃ seg ∈ splitOnChar ',' "k=v,noequals".toList, '=' ∉ seg) ∧
    getEventName "A".toList "{x}".toList "k=v,noequals".toList = none :=
  ⟨by decide, by decide, ⟨"noequals".toList, by decide, by decide⟩,
    C9_malformed_query_pair_panics "A".toList "{x}".toList "k=v,noequals".toList
      (by decide) (by decide) ⟨"noequals".toList, by decide, by decide⟩⟩

/-- C10: whenever a declaration (splitting as `d :: q :: _`) carries a
metric group whose attribute string is empty, has two consecutive commas,
or ends in a comma, the comma split yields a segment that trims to the
empty string; in a successful reduction the query group at `(d, q)` then
holds an entry keyed by the empty string whose metric name is empty, and
the emitted canonical output contains the corresponding attribute record
with empty attribute name and empty metric name — empty segments are not
filtered out. -/
theorem C10_empty_attribute_segments_kept (m : mainDefinitionParser)
    (dm : DomainMap) (h : reduceJavaAgentYaml m = some dm)
    (obj : jmxDefinitionParser) (hobj : obj ∈ m.JMX) (d q : List Char)
    (rest : List (List Char))
    (hsplit : splitOnChar ':' obj.ObjectName = d :: q :: rest)
    (met : metricsDefinitionParser) (hmet : met ∈ obj.Metrics)
    (hseg : met.Attributes = [] ∨
      (∃ pre post, met.Attributes = pre ++ ',' :: ',' :: post) ∨
      ∃ pre, met.Attributes = pre ++ [',']) :
    ∃ en, lookupAttr dm d q [] = some en ∧ en.MetricName = [] ∧
      ∃ dout ∈ buildCollectionDefinition dm, dout.Domain = d ∧
        ∃ bout ∈ dout.Beans, bout.Query = q ∧
          ∃ aout ∈ bout.Attributes, aout.Attr = [] ∧ aout.MetricName = [] := by
  have hseg0 : [] ∈ splitOnChar ',' met.Attributes := by
    rcases hseg with h1 | ⟨pre, post, h1⟩ | ⟨pre, h1⟩
    · rw [h1]
      simp [splitOnChar]
    · rw [h1, splitOnChar_append_sep]
      refine List.mem_append.mpr (Or.inr ?_)
      simp [splitOnChar]
    · have h2 : met.Attributes = pre ++ ',' :: [] := h1
      rw [h2, splitOnChar_append_sep]
      refine List.mem_append.mpr (Or.inr ?_)
      simp [splitOnChar]
  have hmem : AttrEvent.mk obj.RootMetricName d q met.Type' [] ∈ allEvents m := by
    rw [mem_allEvents]
    refine ⟨obj, hobj, ?_⟩
    rw [mem_declEvents]
    exact ⟨⟨rest, hsplit⟩, rfl, met, hmet, rfl, hseg0⟩
  have hpred : (fun e => e.dq0 == d && e.dq1 == q &&
      trimSpace e.rawAttr == ([] : List Char))
      (AttrEvent.mk obj.RootMetricName d q met.Type' []) = true := by
    simp [trimSpace]
  obtain ⟨y, hy⟩ := find?_isSome_of_mem
    (fun e => e.dq0 == d && e.dq1 == q && trimSpace e.rawAttr == ([] : List Char))
    (allEvents m) _ hmem hpred
  have hchar := lookupAttr_reduce m dm h d q []
  rw [hy] at hchar
  refine ⟨attributeReducer.mk (convertMetricType y.mtype) [], hchar, rfl, ?_⟩
  obtain ⟨dout, hdo, hdd, bout, hbo, hbq, hao⟩ :=
    buildCollection_contains dm d q [] _ hchar
  exact ⟨dout, hdo, hdd, bout, hbo, hbq,
    attributeOutput.mk [] (convertMetricType y.mtype) [], hao, rfl, rfl⟩

/-- Document for the C10 witness: one metric group with attribute string
"a,,b" (consecutive commas). -/
def mC10 : mainDefinitionParser :=
  mainDefinitionParser.mk "A".toList
    [jmxDefinitionParser.mk "d:q".toList []
      [metricsDefinitionParser.mk "a,,b".toList "simple".toList]]

/-- The intermediate model produced by reducing `mC10`: the empty string is
one of the attribute keys. -/
def dmC10 : DomainMap :=
  [("d".toList, domainReducer.mk "A".toList
    [("q".toList, beanReducer.mk
      [("a".toList, attributeReducer.mk "gauge".toList "a".toList),
       ([], attributeReducer.mk "gauge".toList []),
       ("b".toList, attributeReducer.mk "gauge".toList "b".toList)])])]

/-- Witness for C10 at the concrete document `mC10`. -/
theorem C10_witness :
    ∃ en, lookupAttr dmC10 "d".toList "q".toList [] = some en ∧
      en.MetricName = [] ∧
      ∃ dout ∈ buildCollectionDefinition dmC10, dout.Domain = "d".toList ∧
        ∃ bout ∈ dout.Beans, bout.Query = "q".toList ∧
          ∃ aout ∈ bout.Attributes, aout.Attr = [] ∧ aout.MetricName = [] :=
  C10_empty_attribute_segments_kept mC10 dmC10 (by decide)
    (jmxDefinitionParser.mk "d:q".toList []
      [metricsDefinitionParser.mk "a,,b".toList "simple".toList])
    (by decide) "d".toList "q".toList [] (by decide)
    (metricsDefinitionParser.mk "a,,b".toList "simple".toList) (by decide)
    (Or.inr (Or.inl ⟨"a".toList, "b".toList, by decide⟩))
